import Mathlib

/-!
Shallow embedding of `src/apiv2.py` (class `LossDataEstimator`) from the
reprieve repository, together with proofs about the claims on its
behaviour.  The result table is a list of rows `(seed, samples, val_loss)`;
pandas floats are modelled by `ℚ`.  Opaque training/evaluation callbacks
are modelled by function parameters (oracles).
-/

namespace Reprieve

/-- One row of the pandas result table `self.results`
(columns `seed`, `samples`, `val_loss`). -/
structure Row where
  seed : ℕ
  samples : ℚ
  val_loss : ℚ
deriving DecidableEq, Repr

/-- pandas `Series.min()` on the list of values of a column:
`None` (NaN) on an empty series, otherwise the least element. -/
def seriesMin : List ℚ → Option ℚ
  | [] => none
  | x :: xs => some (xs.foldl min x)

/-- pandas `Series.max()` on the list of values of a column. -/
def seriesMax : List ℚ → Option ℚ
  | [] => none
  | x :: xs => some (xs.foldl max x)

/-- `LossDataEstimator._bound_esc` (src/apiv2.py lines 305-320):
`upper_bound = r[r['val_loss'] <= epsilon]['samples'].min()`,
`lower_bound = r[r['val_loss'] > epsilon]['samples'].max()`,
then the two NaN-handling branches.  Returns `(lower_bound, upper_bound)`. -/
def boundEsc (r : List Row) (epsilon : ℚ) : Option ℚ × Option ℚ :=
  let upper_bound := seriesMin ((r.filter (fun x => x.val_loss ≤ epsilon)).map Row.samples)
  let lower_bound := seriesMax ((r.filter (fun x => epsilon < x.val_loss)).map Row.samples)
  match upper_bound with
  | none => (seriesMax (r.map Row.samples), none)
  | some u =>
    match lower_bound with
    | none => (none, seriesMin (r.map Row.samples))
    | some l => (some l, some u)

example : boundEsc [⟨0, 50, 1/2⟩, ⟨0, 100, 1/20⟩] (1/10) = (some 50, some 100) := by
  norm_num [boundEsc, seriesMin, seriesMax, List.filter]

example : boundEsc [⟨0, 50, 50⟩] 25 = (some 50, none) := by decide

example : boundEsc [⟨0, 50, 0⟩] 25 = (none, some 50) := by decide

lemma foldl_min_le_init (xs : List ℚ) (a : ℚ) : xs.foldl min a ≤ a := by
  induction xs generalizing a with
  | nil => exact le_refl a
  | cons y ys ih => exact le_trans (ih (min a y)) (min_le_left a y)

lemma foldl_min_le_mem (xs : List ℚ) (a q : ℚ) (hq : q ∈ xs) : xs.foldl min a ≤ q := by
  induction xs generalizing a with
  | nil => cases hq
  | cons y ys ih =>
    rcases List.mem_cons.mp hq with h | h
    · subst h
      exact le_trans (foldl_min_le_init ys (min a q)) (min_le_right a q)
    · exact ih (min a y) h

lemma foldl_min_mem (xs : List ℚ) (a : ℚ) : xs.foldl min a ∈ a :: xs := by
  induction xs generalizing a with
  | nil => exact List.mem_singleton.mpr rfl
  | cons y ys ih =>
    rcases List.mem_cons.mp (ih (min a y)) with h | h
    · rw [List.foldl_cons, h]
      rcases min_choice a y with hm | hm
      · rw [hm]; exact List.mem_cons_self _ _
      · rw [hm]; exact List.mem_cons.mpr (Or.inr (List.mem_cons_self _ _))
    · exact List.mem_cons.mpr (Or.inr (List.mem_cons.mpr (Or.inr h)))

lemma foldl_max_init_le (xs : List ℚ) (a : ℚ) : a ≤ xs.foldl max a := by
  induction xs generalizing a with
  | nil => exact le_refl a
  | cons y ys ih => exact le_trans (le_max_left a y) (ih (max a y))

lemma foldl_max_mem_le (xs : List ℚ) (a q : ℚ) (hq : q ∈ xs) : q ≤ xs.foldl max a := by
  induction xs generalizing a with
  | nil => cases hq
  | cons y ys ih =>
    rcases List.mem_cons.mp hq with h | h
    · subst h
      exact le_trans (le_max_right a q) (foldl_max_init_le ys (max a q))
    · exact ih (max a y) h

lemma foldl_max_mem (xs : List ℚ) (a : ℚ) : xs.foldl max a ∈ a :: xs := by
  induction xs generalizing a with
  | nil => exact List.mem_singleton.mpr rfl
  | cons y ys ih =>
    rcases List.mem_cons.mp (ih (max a y)) with h | h
    · rw [List.foldl_cons, h]
      rcases max_choice a y with hm | hm
      · rw [hm]; exact List.mem_cons_self _ _
      · rw [hm]; exact List.mem_cons.mpr (Or.inr (List.mem_cons_self _ _))
    · exact List.mem_cons.mpr (Or.inr (List.mem_cons.mpr (Or.inr h)))

/-- `seriesMin` of a non-empty list is an element that is `≤` all elements. -/
lemma seriesMin_spec (l : List ℚ) (hl : l ≠ []) :
    ∃ m, seriesMin l = some m ∧ m ∈ l ∧ ∀ q ∈ l, m ≤ q := by
  cases l with
  | nil => exact absurd rfl hl
  | cons x xs =>
    refine ⟨xs.foldl min x, rfl, foldl_min_mem xs x, ?_⟩
    intro q hq
    rcases List.mem_cons.mp hq with h | h
    · exact h ▸ foldl_min_le_init xs x
    · exact foldl_min_le_mem xs x q h

/-- `seriesMax` of a non-empty list is an element that is `≥` all elements. -/
lemma seriesMax_spec (l : List ℚ) (hl : l ≠ []) :
    ∃ m, seriesMax l = some m ∧ m ∈ l ∧ ∀ q ∈ l, q ≤ m := by
  cases l with
  | nil => exact absurd rfl hl
  | cons x xs =>
    refine ⟨xs.foldl max x, rfl, foldl_max_mem xs x, ?_⟩
    intro q hq
    rcases List.mem_cons.mp hq with h | h
    · exact h ▸ foldl_max_init_le xs x
    · exact foldl_max_mem_le xs x q h

lemma seriesMin_eq_none (l : List ℚ) : seriesMin l = none ↔ l = [] := by
  cases l with
  | nil => simp [seriesMin]
  | cons x xs => simp [seriesMin]

lemma seriesMax_eq_none (l : List ℚ) : seriesMax l = none ↔ l = [] := by
  cases l with
  | nil => simp [seriesMax]
  | cons x xs => simp [seriesMax]

/-- The `samples` values of the rows with `val_loss <= epsilon`
(the column the code takes the `.min()` of). -/
def hitSamples (r : List Row) (epsilon : ℚ) : List ℚ :=
  (r.filter (fun x => x.val_loss ≤ epsilon)).map Row.samples

/-- The `samples` values of the rows with `val_loss > epsilon`
(the column the code takes the `.max()` of). -/
def missSamples (r : List Row) (epsilon : ℚ) : List ℚ :=
  (r.filter (fun x => epsilon < x.val_loss)).map Row.samples

/-- The whole `samples` column. -/
def allSamples (r : List Row) : List ℚ :=
  r.map Row.samples

lemma boundEsc_eq (r : List Row) (epsilon : ℚ) :
    boundEsc r epsilon =
      match seriesMin (hitSamples r epsilon) with
      | none => (seriesMax (allSamples r), none)
      | some u =>
        match seriesMax (missSamples r epsilon) with
        | none => (none, seriesMin (allSamples r))
        | some l => (some l, some u) := rfl

/-- When both filtered row sets are non-empty, `_bound_esc` returns
`(max of the misses, min of the hits)`. -/
lemma boundEsc_of_both (r : List Row) (epsilon : ℚ)
    (h1 : hitSamples r epsilon ≠ []) (h2 : missSamples r epsilon ≠ []) :
    ∃ l u, boundEsc r epsilon = (some l, some u) ∧
      l ∈ missSamples r epsilon ∧ (∀ q ∈ missSamples r epsilon, q ≤ l) ∧
      u ∈ hitSamples r epsilon ∧ (∀ q ∈ hitSamples r epsilon, u ≤ q) := by
  obtain ⟨u, hu, humem, hule⟩ := seriesMin_spec _ h1
  obtain ⟨l, hl, hlmem, hlge⟩ := seriesMax_spec _ h2
  refine ⟨l, u, ?_, hlmem, hlge, humem, hule⟩
  rw [boundEsc_eq, hu, hl]

lemma mem_hitSamples (r : List Row) (epsilon : ℚ) (q : ℚ) :
    q ∈ hitSamples r epsilon ↔ ∃ x ∈ r, x.val_loss ≤ epsilon ∧ x.samples = q := by
  simp only [hitSamples, List.mem_map, List.mem_filter, decide_eq_true_eq]
  constructor
  · rintro ⟨x, ⟨hx, hle⟩, hs⟩; exact ⟨x, hx, hle, hs⟩
  · rintro ⟨x, hx, hle, hs⟩; exact ⟨x, ⟨hx, hle⟩, hs⟩

lemma mem_missSamples (r : List Row) (epsilon : ℚ) (q : ℚ) :
    q ∈ missSamples r epsilon ↔ ∃ x ∈ r, epsilon < x.val_loss ∧ x.samples = q := by
  simp only [missSamples, List.mem_map, List.mem_filter, decide_eq_true_eq]
  constructor
  · rintro ⟨x, ⟨hx, hle⟩, hs⟩; exact ⟨x, hx, hle, hs⟩
  · rintro ⟨x, hx, hle, hs⟩; exact ⟨x, ⟨hx, hle⟩, hs⟩

/-- C1: for every result table and epsilon, when both filtered row sets are
non-empty, `_bound_esc` returns `upper_bound` = the minimum `samples` among
rows with `val_loss <= epsilon` and `lower_bound` = the maximum `samples`
among rows with `val_loss > epsilon`; in particular, on the table with rows
`(samples=50, val_loss=0.5)` and `(samples=100, val_loss=0.05)` it returns
`(lower_bound, upper_bound) = (50, 100)` at `epsilon = 0.1`. -/
theorem bound_esc_min_hit_max_miss (r : List Row) (epsilon : ℚ)
    (h1 : hitSamples r epsilon ≠ []) (h2 : missSamples r epsilon ≠ []) :
    (∃ l u, boundEsc r epsilon = (some l, some u) ∧
      l ∈ missSamples r epsilon ∧ (∀ q ∈ missSamples r epsilon, q ≤ l) ∧
      u ∈ hitSamples r epsilon ∧ (∀ q ∈ hitSamples r epsilon, u ≤ q)) ∧
    boundEsc [⟨0, 50, 1/2⟩, ⟨0, 100, 1/20⟩] (1/10) = (some 50, some 100) :=
  ⟨boundEsc_of_both r epsilon h1 h2,
   by norm_num [boundEsc, seriesMin, seriesMax, List.filter]⟩

/-- C1 witness: the theorem applied to the concrete table of the claim. -/
theorem bound_esc_min_hit_max_miss_witness :
    (∃ l u, boundEsc [⟨0, 50, 1/2⟩, ⟨0, 100, 1/20⟩] (1/10) = (some l, some u) ∧
      l ∈ missSamples [⟨0, 50, 1/2⟩, ⟨0, 100, 1/20⟩] (1/10) ∧
      (∀ q ∈ missSamples [⟨0, 50, 1/2⟩, ⟨0, 100, 1/20⟩] (1/10), q ≤ l) ∧
      u ∈ hitSamples [⟨0, 50, 1/2⟩, ⟨0, 100, 1/20⟩] (1/10) ∧
      (∀ q ∈ hitSamples [⟨0, 50, 1/2⟩, ⟨0, 100, 1/20⟩] (1/10), u ≤ q)) ∧
    boundEsc [⟨0, 50, 1/2⟩, ⟨0, 100, 1/20⟩] (1/10) = (some 50, some 100) :=
  bound_esc_min_hit_max_miss [⟨0, 50, 1/2⟩, ⟨0, 100, 1/20⟩] (1/10)
    (by norm_num [hitSamples, List.filter])
    (by norm_num [missSamples, List.filter])

/-- C4: on a non-empty table, if no row has `val_loss <= epsilon` then
`_bound_esc` returns `upper_bound = None` and `lower_bound` = the maximum
`samples` over the whole table; symmetrically, if no row has
`val_loss > epsilon` it returns `lower_bound = None` and `upper_bound` = the
minimum `samples` over the whole table. -/
theorem bound_esc_one_sided (r : List Row) (epsilon : ℚ) (hne : r ≠ []) :
    (hitSamples r epsilon = [] →
      ∃ l, boundEsc r epsilon = (some l, none) ∧
        l ∈ allSamples r ∧ ∀ q ∈ allSamples r, q ≤ l) ∧
    (missSamples r epsilon = [] →
      ∃ u, boundEsc r epsilon = (none, some u) ∧
        u ∈ allSamples r ∧ ∀ q ∈ allSamples r, u ≤ q) := by
  have hall : allSamples r ≠ [] := by
    cases r with
    | nil => exact absurd rfl hne
    | cons x xs => simp [allSamples]
  constructor
  · intro hhit
    obtain ⟨l, hl, hlmem, hlge⟩ := seriesMax_spec (allSamples r) hall
    refine ⟨l, ?_, hlmem, hlge⟩
    rw [boundEsc_eq, (seriesMin_eq_none _).mpr hhit, hl]
  · intro hmiss
    have hhit : hitSamples r epsilon ≠ [] := by
      cases r with
      | nil => exact absurd rfl hne
      | cons x xs =>
        have hx : ¬ epsilon < x.val_loss := by
          intro hlt
          have : x ∈ List.filter (fun y => decide (epsilon < y.val_loss)) (x :: xs) :=
            List.mem_filter.mpr ⟨List.mem_cons_self _ _, decide_eq_true hlt⟩
          rw [show List.filter (fun y => decide (epsilon < y.val_loss)) (x :: xs) = [] from
            by simpa [missSamples] using hmiss] at this
          cases this
        intro habs
        have : x ∈ List.filter (fun y => decide (y.val_loss ≤ epsilon)) (x :: xs) :=
          List.mem_filter.mpr ⟨List.mem_cons_self _ _, decide_eq_true (le_of_not_lt hx)⟩
        rw [show List.filter (fun y => decide (y.val_loss ≤ epsilon)) (x :: xs) = [] from
          by simpa [hitSamples] using habs] at this
        cases this
    obtain ⟨u0, hu0, _, _⟩ := seriesMin_spec (hitSamples r epsilon) hhit
    obtain ⟨u, hu, humem, hule⟩ := seriesMin_spec (allSamples r) hall
    refine ⟨u, ?_, humem, hule⟩
    rw [boundEsc_eq, hu0, (seriesMax_eq_none _).mpr hmiss, hu]

/-- C4 witness: the two one-sided cases at concrete tables. -/
theorem bound_esc_one_sided_witness :
    (∃ l, boundEsc [⟨0, 50, 50⟩] 25 = (some l, none) ∧
      l ∈ allSamples [⟨0, 50, 50⟩] ∧ ∀ q ∈ allSamples [⟨0, 50, 50⟩], q ≤ l) ∧
    (∃ u, boundEsc [⟨0, 50, 0⟩] 25 = (none, some u) ∧
      u ∈ allSamples [⟨0, 50, 0⟩] ∧ ∀ q ∈ allSamples [⟨0, 50, 0⟩], u ≤ q) :=
  ⟨(bound_esc_one_sided [⟨0, 50, 50⟩] 25 (by decide)).1 (by decide),
   (bound_esc_one_sided [⟨0, 50, 0⟩] 25 (by decide)).2 (by decide)⟩

/-- `np.linspace(a, b, n)` over `ℚ`: `n` evenly spaced values from `a` to `b`
inclusive (`numpy` returns `[a]` for `n = 1` and `[]` for `n = 0`). -/
def linspaceQ (a b : ℚ) (n : ℕ) : List ℚ :=
  if n = 1 then [a]
  else (List.range n).map (fun (i : ℕ) => a + (i : ℚ) * (b - a) / ((n : ℚ) - 1))

/-- `np.linspace(lower_bound, upper_bound, parallelism)[1:-1]`
(src/apiv2.py line 176): the candidate points probed in one round of
`refine_esc`. -/
def candidatePoints (lb ub : ℚ) (parallelism : ℕ) : List ℚ :=
  ((linspaceQ lb ub parallelism).drop 1).dropLast

/-- The rows appended for points `pts`, one row `(seed, point, loss)` per
`(point, seed)` pair with `seed` ranging over `0 .. n_seeds - 1` and the
loss supplied by the training/evaluation oracle `f`. -/
def curveRows (f : ℕ → ℚ → ℚ) (n_seeds : ℕ) (pts : List ℚ) : List Row :=
  pts.flatMap (fun p => (List.range n_seeds).map (fun s => ⟨s, p, f s p⟩))

/-- `LossDataEstimator._compute_curve_sequential` (src/apiv2.py lines
185-199): for each point, for each seed, run the experiment and append a row
`{'seed': seed, 'samples': point, 'val_loss': ...}` to the results.  The
training and evaluation of one `(seed, point)` job is abstracted by the loss
oracle `f`. -/
def computeCurveSequential (f : ℕ → ℚ → ℚ) (n_seeds : ℕ) (pts : List ℚ)
    (results : List Row) : List Row :=
  pts.foldl
    (fun res point =>
      (List.range n_seeds).foldl
        (fun res2 seed => res2 ++ [⟨seed, point, f seed point⟩]) res)
    results

/-- `LossDataEstimator._compute_curve_full_vmap` (src/apiv2.py lines
202-218): builds the job list `[(point, seed) for point in points for seed
in seeds]`, trains all jobs in lockstep, and appends one row per job; the
per-job validation loss is abstracted by the oracle `f`. -/
def computeCurveFullVmap (f : ℕ → ℚ → ℚ) (n_seeds : ℕ) (pts : List ℚ)
    (results : List Row) : List Row :=
  let seeds := List.range n_seeds
  let jobs := pts.flatMap (fun point => seeds.map (fun seed => (point, seed)))
  jobs.foldl (fun res job => res ++ [⟨job.2, job.1, f job.2 job.1⟩]) results

lemma foldl_append_rows {β : Type} (g : β → Row) (l : List β) (res : List Row) :
    l.foldl (fun r b => r ++ [g b]) res = res ++ l.map g := by
  induction l generalizing res with
  | nil => simp
  | cons b bs ih => simp [ih, List.append_assoc]

/-- The sequential strategy appends exactly the rows `curveRows f n_seeds pts`. -/
lemma computeCurveSequential_eq (f : ℕ → ℚ → ℚ) (n_seeds : ℕ) (pts : List ℚ)
    (results : List Row) :
    computeCurveSequential f n_seeds pts results = results ++ curveRows f n_seeds pts := by
  induction pts generalizing results with
  | nil => simp [computeCurveSequential, curveRows]
  | cons p ps ih =>
    simp only [computeCurveSequential, List.foldl_cons] at *
    rw [ih, foldl_append_rows (fun s => ⟨s, p, f s p⟩)]
    simp [curveRows, List.append_assoc]

/-- The vectorized strategy appends exactly the same rows. -/
lemma computeCurveFullVmap_eq (f : ℕ → ℚ → ℚ) (n_seeds : ℕ) (pts : List ℚ)
    (results : List Row) :
    computeCurveFullVmap f n_seeds pts results = results ++ curveRows f n_seeds pts := by
  have h := foldl_append_rows (fun job : ℚ × ℕ => (⟨job.2, job.1, f job.2 job.1⟩ : Row))
      (pts.flatMap fun point => (List.range n_seeds).map fun seed => (point, seed)) results
  have h2 : (pts.flatMap fun point => (List.range n_seeds).map fun seed => (point, seed)).map
      (fun job : ℚ × ℕ => (⟨job.2, job.1, f job.2 job.1⟩ : Row)) = curveRows f n_seeds pts := by
    rw [List.map_flatMap]
    unfold curveRows
    congr 1
    funext p
    rw [List.map_map]
    rfl
  exact h.trans (by rw [h2])

lemma curveRows_length (f : ℕ → ℚ → ℚ) (n_seeds : ℕ) (pts : List ℚ) :
    (curveRows f n_seeds pts).length = pts.length * n_seeds := by
  induction pts with
  | nil => simp [curveRows]
  | cons p ps ih =>
    simp only [curveRows, List.flatMap_cons, List.length_append, List.length_map,
      List.length_range, List.length_cons] at *
    rw [ih]; ring

lemma mem_curveRows (f : ℕ → ℚ → ℚ) (n_seeds : ℕ) (pts : List ℚ)
    (p : ℚ) (hp : p ∈ pts) (s : ℕ) (hs : s < n_seeds) :
    (⟨s, p, f s p⟩ : Row) ∈ curveRows f n_seeds pts := by
  exact List.mem_flatMap.mpr ⟨p, hp, List.mem_map.mpr ⟨s, List.mem_range.mpr hs, rfl⟩⟩

lemma linspaceQ_of_two_le (a b : ℚ) (n : ℕ) (hn : 2 ≤ n) :
    linspaceQ a b n =
      (List.range n).map (fun (i : ℕ) => a + (i : ℚ) * (b - a) / ((n : ℚ) - 1)) := by
  unfold linspaceQ
  rw [if_neg (by omega)]

/-- The candidate points of one refinement round, in closed form:
`lb + (i+1) * (ub - lb) / (parallelism - 1)` for `i = 0 .. parallelism - 3`. -/
lemma candidatePoints_eq (lb ub : ℚ) (par : ℕ) :
    candidatePoints lb ub par =
      (List.range (par - 2)).map
        (fun (i : ℕ) => lb + ((i : ℚ) + 1) * (ub - lb) / ((par : ℚ) - 1)) := by
  match par with
  | 0 => rfl
  | 1 => rfl
  | n + 2 =>
    unfold candidatePoints
    rw [linspaceQ_of_two_le _ _ _ (by omega)]
    rw [List.range_succ_eq_map (n + 1)]
    rw [List.map_cons, List.drop_one, List.tail_cons, List.map_map]
    rw [List.range_succ, List.map_append, List.map_cons, List.map_nil,
      List.dropLast_concat]
    have hred : n + 2 - 2 = n := by omega
    rw [hred]
    apply List.map_congr_left
    intro i _
    simp only [Function.comp_apply]
    push_cast
    ring

lemma candidatePoints_length (lb ub : ℚ) (par : ℕ) :
    (candidatePoints lb ub par).length = par - 2 := by
  rw [candidatePoints_eq, List.length_map, List.length_range]

/-- Outcome of a `refine_esc` call: a returned value together with the final
result table; `typeError`, the error Python raises when either bound is
`None` and the loop condition evaluates `upper_bound - lower_bound`; or
exhaustion of the fuel that bounds the number of `while`-loop iterations
(used to model non-termination). -/
inductive RefineResult where
  | ok (esc : ℚ) (results : List Row)
  | typeError
  | outOfFuel
deriving DecidableEq, Repr

/-- `LossDataEstimator.refine_esc` (src/apiv2.py lines 161-179), with the
mutated `self.results` passed explicitly and a fuel argument bounding the
number of `while`-loop iterations.  Each iteration recomputes the bounds
with `_bound_esc`, returns `upper_bound` once
`upper_bound - lower_bound <= precision`, and otherwise calls
`compute_curve(points=np.linspace(lower_bound, upper_bound,
parallelism)[1:-1])`; the dispatch of `compute_curve` with explicit points
to `_compute_curve_sequential` is inlined, with training abstracted by the
loss oracle `f`. -/
def refineEsc (f : ℕ → ℚ → ℚ) (n_seeds : ℕ) (epsilon precision : ℚ)
    (parallelism : ℕ) : ℕ → List Row → RefineResult
  | 0, _ => .outOfFuel
  | fuel + 1, results =>
    match boundEsc results epsilon with
    | (some lower_bound, some upper_bound) =>
      if precision < upper_bound - lower_bound then
        refineEsc f n_seeds epsilon precision parallelism fuel
          (computeCurveSequential f n_seeds
            (candidatePoints lower_bound upper_bound parallelism) results)
      else .ok upper_bound results
    | _ => .typeError

/-- One unfolding of the `refine_esc` loop in the case where both bounds
exist and the gap is still larger than the precision. -/
lemma refineEsc_step (f : ℕ → ℚ → ℚ) (n_seeds : ℕ) (epsilon precision : ℚ)
    (parallelism fuel : ℕ) (results : List Row) (lb ub : ℚ)
    (hb : boundEsc results epsilon = (some lb, some ub))
    (hgap : precision < ub - lb) :
    refineEsc f n_seeds epsilon precision parallelism (fuel + 1) results =
      refineEsc f n_seeds epsilon precision parallelism fuel
        (computeCurveSequential f n_seeds (candidatePoints lb ub parallelism) results) := by
  rw [refineEsc]
  simp only [hb]
  rw [if_pos hgap]

/-- One unfolding of the `refine_esc` loop in the case where both bounds
exist and the gap is within the precision: the call returns `upper_bound`. -/
lemma refineEsc_stop (f : ℕ → ℚ → ℚ) (n_seeds : ℕ) (epsilon precision : ℚ)
    (parallelism fuel : ℕ) (results : List Row) (lb ub : ℚ)
    (hb : boundEsc results epsilon = (some lb, some ub))
    (hgap : ¬ precision < ub - lb) :
    refineEsc f n_seeds epsilon precision parallelism (fuel + 1) results =
      .ok ub results := by
  rw [refineEsc]
  simp only [hb]
  rw [if_neg hgap]

/-- C3 counterexample: with current bounds 50 and 100 and `parallelism = 10`,
one refinement round probes `np.linspace(50, 100, 10)[1:-1]`, which contains
8 candidate points, not 10 as the claim states. -/
theorem refine_candidate_points_cex :
    (candidatePoints 50 100 10).length = 8 ∧
      ¬ (candidatePoints 50 100 10).length = 10 := by
  exact ⟨rfl, by decide⟩

/-- C3 amended: in every iteration of the `refine_esc` loop in which
`upper_bound - lower_bound > precision`, the engine runs the curve
computation at exactly `parallelism - 2` evenly spaced candidate points
(`np.linspace` includes both endpoints, which `[1:-1]` then removes), all
strictly between the current `lower_bound` and `upper_bound`. -/
theorem refine_candidate_points_amended (f : ℕ → ℚ → ℚ) (n_seeds : ℕ)
    (epsilon precision : ℚ) (parallelism fuel : ℕ) (results : List Row)
    (lb ub : ℚ)
    (hb : boundEsc results epsilon = (some lb, some ub))
    (hgap : precision < ub - lb) (hlt : lb < ub) :
    refineEsc f n_seeds epsilon precision parallelism (fuel + 1) results =
      refineEsc f n_seeds epsilon precision parallelism fuel
        (computeCurveSequential f n_seeds
          (candidatePoints lb ub parallelism) results) ∧
    (candidatePoints lb ub parallelism).length = parallelism - 2 ∧
    candidatePoints lb ub parallelism =
      (List.range (parallelism - 2)).map
        (fun (i : ℕ) => lb + ((i : ℚ) + 1) * (ub - lb) / ((parallelism : ℚ) - 1)) ∧
    ∀ p ∈ candidatePoints lb ub parallelism, lb < p ∧ p < ub := by
  refine ⟨refineEsc_step f n_seeds epsilon precision parallelism fuel results lb ub hb hgap,
    candidatePoints_length lb ub parallelism, candidatePoints_eq lb ub parallelism, ?_⟩
  intro p hp
  rw [candidatePoints_eq] at hp
  obtain ⟨i, hi, rfl⟩ := List.mem_map.mp hp
  rw [List.mem_range] at hi
  have hpar : 3 ≤ parallelism := by omega
  have hcast : ((i : ℚ) + 3) ≤ (parallelism : ℚ) := by
    have h2 : (i + 3 : ℕ) ≤ parallelism := by omega
    exact_mod_cast h2
  have hc : (0:ℚ) < (parallelism : ℚ) - 1 := by linarith
  have hd : (0:ℚ) < ub - lb := by linarith
  constructor
  · have hpos : 0 < ((i : ℚ) + 1) * (ub - lb) / ((parallelism : ℚ) - 1) :=
      div_pos (mul_pos (by positivity) hd) hc
    linarith
  · have hlt2 : ((i : ℚ) + 1) * (ub - lb) / ((parallelism : ℚ) - 1) < ub - lb := by
      rw [div_lt_iff₀ hc]
      nlinarith
    linarith

/-- C3 witness: a concrete refinement round at bounds 50 and 100 with
`parallelism = 10`. -/
theorem refine_candidate_points_witness :
    refineEsc (fun _ _ => 0) 1 25 1 10 (0 + 1) [⟨0, 50, 50⟩, ⟨0, 100, 0⟩] =
      refineEsc (fun _ _ => 0) 1 25 1 10 0
        (computeCurveSequential (fun _ _ => 0) 1
          (candidatePoints 50 100 10) [⟨0, 50, 50⟩, ⟨0, 100, 0⟩]) ∧
    (candidatePoints 50 100 10).length = 10 - 2 ∧
    candidatePoints 50 100 10 =
      (List.range (10 - 2)).map
        (fun (i : ℕ) => 50 + ((i : ℚ) + 1) * (100 - 50) / ((10 : ℚ) - 1)) ∧
    ∀ p ∈ candidatePoints 50 100 10, 50 < p ∧ p < 100 :=
  refine_candidate_points_amended (fun _ _ => 0) 1 25 1 10 0
    [⟨0, 50, 50⟩, ⟨0, 100, 0⟩] 50 100 (by decide) (by norm_num) (by norm_num)

/-- C5 counterexample: on a table where no row meets the target (so
`_bound_esc` returns `upper_bound = None`), `refine_esc` fails with the
generic `TypeError` raised by the subtraction `upper_bound - lower_bound`;
no distinct "insufficient data" condition is raised. -/
theorem refine_esc_undefined_bound_cex :
    refineEsc (fun _ _ => 0) 1 25 1 10 1 [⟨0, 50, 50⟩] = .typeError := by
  decide

/-- C5 amended: whenever `refine_esc` evaluates its loop condition while
either bound returned by `_bound_esc` is `None`, the call fails with the
generic arithmetic `TypeError` arising from `upper_bound - lower_bound`;
the condition is not surfaced as a distinct "insufficient data" error. -/
theorem refine_esc_undefined_bound_amended (f : ℕ → ℚ → ℚ) (n_seeds : ℕ)
    (epsilon precision : ℚ) (parallelism fuel : ℕ) (results : List Row)
    (h : (boundEsc results epsilon).1 = none ∨ (boundEsc results epsilon).2 = none) :
    refineEsc f n_seeds epsilon precision parallelism (fuel + 1) results =
      .typeError := by
  rw [refineEsc]
  rcases hb : boundEsc results epsilon with ⟨_ | l, _ | u⟩
  · rfl
  · rfl
  · rfl
  · rw [hb] at h
    simp at h

/-- C5 witness: the amended theorem at a concrete one-sided table. -/
theorem refine_esc_undefined_bound_witness :
    refineEsc (fun _ _ => 0) 1 25 1 10 (0 + 1) [⟨0, 50, 50⟩] = .typeError :=
  refine_esc_undefined_bound_amended (fun _ _ => 0) 1 25 1 10 0 [⟨0, 50, 50⟩]
    (Or.inr (by decide))

/-- The result table is consistent with a synthetic loss-vs-size function:
every recorded `val_loss` equals the (seed-independent) loss `f 0` of its
`samples` value. -/
def consistent (f : ℕ → ℚ → ℚ) (r : List Row) : Prop :=
  ∀ row ∈ r, row.val_loss = f 0 row.samples

lemma mem_curveRows_elim (f : ℕ → ℚ → ℚ) (n_seeds : ℕ) (pts : List ℚ)
    (row : Row) (h : row ∈ curveRows f n_seeds pts) :
    ∃ p ∈ pts, ∃ s, row = ⟨s, p, f s p⟩ := by
  obtain ⟨p, hp, hrow⟩ := List.mem_flatMap.mp h
  obtain ⟨s, _, hs⟩ := List.mem_map.mp hrow
  exact ⟨p, hp, s, hs.symm⟩

lemma consistent_append_curveRows (f : ℕ → ℚ → ℚ) (n_seeds : ℕ)
    (pts : List ℚ) (r : List Row)
    (hseed : ∀ s₁ s₂ p, f s₁ p = f s₂ p) (hr : consistent f r) :
    consistent f (computeCurveSequential f n_seeds pts r) := by
  rw [computeCurveSequential_eq]
  intro row hrow
  rcases List.mem_append.mp hrow with h | h
  · exact hr row h
  · obtain ⟨p, _, s, rfl⟩ := mem_curveRows_elim f n_seeds pts row h
    exact hseed s 0 p

lemma hitSamples_append_left (r r' : List Row) (epsilon : ℚ) (q : ℚ)
    (h : q ∈ hitSamples r epsilon) : q ∈ hitSamples (r ++ r') epsilon := by
  rw [mem_hitSamples] at h ⊢
  obtain ⟨x, hx, hle, hs⟩ := h
  exact ⟨x, List.mem_append_left _ hx, hle, hs⟩

lemma missSamples_append_left (r r' : List Row) (epsilon : ℚ) (q : ℚ)
    (h : q ∈ missSamples r epsilon) : q ∈ missSamples (r ++ r') epsilon := by
  rw [mem_missSamples] at h ⊢
  obtain ⟨x, hx, hle, hs⟩ := h
  exact ⟨x, List.mem_append_left _ hx, hle, hs⟩

/-- Inversion: if `_bound_esc` returned two defined bounds then they are the
maximum miss and the minimum hit. -/
lemma boundEsc_some_some (r : List Row) (epsilon : ℚ) (lb ub : ℚ)
    (hb : boundEsc r epsilon = (some lb, some ub)) :
    lb ∈ missSamples r epsilon ∧ (∀ q ∈ missSamples r epsilon, q ≤ lb) ∧
    ub ∈ hitSamples r epsilon ∧ (∀ q ∈ hitSamples r epsilon, ub ≤ q) := by
  by_cases h1 : hitSamples r epsilon = []
  · rw [boundEsc_eq, (seriesMin_eq_none _).mpr h1] at hb
    simp at hb
  by_cases h2 : missSamples r epsilon = []
  · obtain ⟨u0, hu0, _, _⟩ := seriesMin_spec _ h1
    rw [boundEsc_eq, hu0, (seriesMax_eq_none _).mpr h2] at hb
    simp at hb
  · obtain ⟨l, u, heq, p1, p2, p3, p4⟩ := boundEsc_of_both r epsilon h1 h2
    rw [heq] at hb
    injection hb with hb1 hb2
    injection hb1 with hb1
    injection hb2 with hb2
    subst hb1; subst hb2
    exact ⟨p1, p2, p3, p4⟩

/-- Under a monotonically decreasing synthetic loss, every sample size that
misses the target is strictly below every sample size that meets it. -/
lemma miss_lt_hit (f : ℕ → ℚ → ℚ) (r : List Row) (epsilon : ℚ)
    (hf : ∀ a b : ℚ, a ≤ b → f 0 b ≤ f 0 a) (hr : consistent f r)
    (l u : ℚ) (hl : l ∈ missSamples r epsilon) (hu : u ∈ hitSamples r epsilon) :
    l < u := by
  obtain ⟨x, hx, hxl, hxs⟩ := (mem_missSamples r epsilon l).mp hl
  obtain ⟨y, hy, hyl, hys⟩ := (mem_hitSamples r epsilon u).mp hu
  by_contra hle
  push_neg at hle
  have h1 : f 0 l ≤ f 0 u := hf u l hle
  have h2 : epsilon < f 0 l := by
    have hc := hr x hx
    rw [hxs] at hc
    rw [← hc]
    exact hxl
  have h3 : f 0 u ≤ epsilon := by
    have hc := hr y hy
    rw [hys] at hc
    rw [← hc]
    exact hyl
  linarith

/-- The greatest index `k ≤ N` satisfying a decidable predicate that holds
at 0; all later indices up to `N` fail the predicate. -/
lemma exists_threshold (Q : ℕ → Prop) [DecidablePred Q] (N : ℕ) (hQ0 : Q 0) :
    ∃ k, k ≤ N ∧ Q k ∧ ∀ m, k < m → m ≤ N → ¬ Q m := by
  refine ⟨Nat.findGreatest Q N, Nat.findGreatest_le N, ?_, ?_⟩
  · exact Nat.findGreatest_spec (Nat.zero_le N) hQ0
  · intro m h1 h2
    exact Nat.findGreatest_is_greatest h1 h2

/-- One refinement round at least divides the bound gap by
`parallelism - 1`: after probing the interior linspace points, the new
bounds are two adjacent grid points around the loss threshold. -/
lemma refine_round (f : ℕ → ℚ → ℚ) (n_seeds : ℕ) (epsilon : ℚ) (par : ℕ)
    (r : List Row) (lb ub : ℚ)
    (hr : consistent f r)
    (hb : boundEsc r epsilon = (some lb, some ub))
    (hlt : lb < ub) (hpar : 3 ≤ par) (hns : 1 ≤ n_seeds) :
    ∃ lb2 ub2,
      boundEsc (computeCurveSequential f n_seeds (candidatePoints lb ub par) r) epsilon
        = (some lb2, some ub2) ∧
      ub2 - lb2 ≤ (ub - lb) / ((par : ℚ) - 1) := by
  obtain ⟨hlbm, _, hubm, _⟩ := boundEsc_some_some r epsilon lb ub hb
  set N := par - 2 with hN
  set c : ℚ := (par : ℚ) - 1 with hc
  have hc2 : (2 : ℚ) ≤ c := by
    have h3 : ((3 : ℕ) : ℚ) ≤ (par : ℚ) := by exact_mod_cast hpar
    push_cast at h3
    rw [hc]; linarith
  have hc0 : (0 : ℚ) < c := by linarith
  set d : ℚ := (ub - lb) / c with hd
  have hd0 : 0 < d := div_pos (by linarith) hc0
  set g : ℕ → ℚ := fun i => lb + (i : ℚ) * d with hg
  have hg0 : g 0 = lb := by simp [hg]
  have hNc : ((N : ℚ) + 1) = c := by
    rw [hN, hc, Nat.cast_sub (by omega : 2 ≤ par)]
    push_cast
    ring
  have hgtop : g (N + 1) = ub := by
    have hcd : c * d = ub - lb := by
      rw [hd, mul_comm, div_mul_cancel₀ _ (ne_of_gt hc0)]
    simp only [hg]
    push_cast
    rw [hNc]
    linarith
  have hpts : candidatePoints lb ub par = (List.range N).map (fun i => g (i + 1)) := by
    rw [candidatePoints_eq, hN]
    apply List.map_congr_left
    intro i _
    simp only [hg, hd, hc]
    push_cast
    ring
  have hP0 : epsilon < f 0 (g 0) := by
    rw [hg0]
    obtain ⟨x, hx, hxl, hxs⟩ := (mem_missSamples r epsilon lb).mp hlbm
    have hcx := hr x hx
    rw [hxs] at hcx
    rw [← hcx]; exact hxl
  have hfub : f 0 ub ≤ epsilon := by
    obtain ⟨y, hy, hyl, hys⟩ := (mem_hitSamples r epsilon ub).mp hubm
    have hcy := hr y hy
    rw [hys] at hcy
    rw [← hcy]; exact hyl
  obtain ⟨k, hkN, hPk, hgr⟩ := exists_threshold (fun i => epsilon < f 0 (g i)) N hP0
  have hhit : f 0 (g (k + 1)) ≤ epsilon := by
    by_cases hcase : k = N
    · rw [hcase, hgtop]; exact hfub
    · exact le_of_not_lt (hgr (k + 1) (by omega) (by omega))
  have hr2eq : computeCurveSequential f n_seeds (candidatePoints lb ub par) r
      = r ++ curveRows f n_seeds (candidatePoints lb ub par) :=
    computeCurveSequential_eq f n_seeds _ r
  have hub2 : g (k + 1) ∈
      hitSamples (computeCurveSequential f n_seeds (candidatePoints lb ub par) r) epsilon := by
    rw [hr2eq]
    by_cases hcase : k = N
    · rw [hcase, hgtop]
      exact hitSamples_append_left r _ epsilon ub hubm
    · have hmem : g (k + 1) ∈ candidatePoints lb ub par := by
        rw [hpts]
        exact List.mem_map.mpr ⟨k, List.mem_range.mpr (by omega), rfl⟩
      have hrow : (⟨0, g (k + 1), f 0 (g (k + 1))⟩ : Row) ∈
          curveRows f n_seeds (candidatePoints lb ub par) :=
        mem_curveRows f n_seeds _ _ hmem 0 (by omega)
      rw [mem_hitSamples]
      exact ⟨⟨0, g (k + 1), f 0 (g (k + 1))⟩, List.mem_append_right _ hrow, hhit, rfl⟩
  have hlb2 : g k ∈
      missSamples (computeCurveSequential f n_seeds (candidatePoints lb ub par) r) epsilon := by
    rw [hr2eq]
    by_cases hcase : k = 0
    · rw [hcase, hg0]
      exact missSamples_append_left r _ epsilon lb hlbm
    · have hmem : g k ∈ candidatePoints lb ub par := by
        rw [hpts]
        refine List.mem_map.mpr ⟨k - 1, List.mem_range.mpr (by omega), ?_⟩
        congr 1
        omega
      have hrow : (⟨0, g k, f 0 (g k)⟩ : Row) ∈
          curveRows f n_seeds (candidatePoints lb ub par) :=
        mem_curveRows f n_seeds _ _ hmem 0 (by omega)
      rw [mem_missSamples]
      exact ⟨⟨0, g k, f 0 (g k)⟩, List.mem_append_right _ hrow, hPk, rfl⟩
  obtain ⟨l2, u2, heq2, hl2mem, hl2max, hu2mem, hu2min⟩ :=
    boundEsc_of_both _ epsilon (List.ne_nil_of_mem hub2) (List.ne_nil_of_mem hlb2)
  refine ⟨l2, u2, heq2, ?_⟩
  have h1 : u2 ≤ g (k + 1) := hu2min _ hub2
  have h2 : g k ≤ l2 := hl2max _ hlb2
  have h3 : g (k + 1) - g k = d := by
    simp only [hg]
    push_cast
    ring
  linarith

/-- Fuel `n + 1` suffices for `refine_esc` once the gap is at most
`2 ^ n * precision`. -/
lemma refine_terminates_aux (f : ℕ → ℚ → ℚ) (n_seeds : ℕ)
    (epsilon precision : ℚ) (par : ℕ)
    (hseed : ∀ s₁ s₂ p, f s₁ p = f s₂ p)
    (hf : ∀ a b : ℚ, a ≤ b → f 0 b ≤ f 0 a)
    (hpar : 3 ≤ par) (hns : 1 ≤ n_seeds) :
    ∀ (n : ℕ) (r : List Row) (lb ub : ℚ), consistent f r →
      boundEsc r epsilon = (some lb, some ub) →
      ub - lb ≤ 2 ^ n * precision →
      ∃ v r', refineEsc f n_seeds epsilon precision par (n + 1) r = .ok v r' ∧
        ∃ lb' ub', boundEsc r' epsilon = (some lb', some ub') ∧
          v = ub' ∧ lb' ≤ ub' ∧ ub' - lb' ≤ precision := by
  intro n
  induction n with
  | zero =>
    intro r lb ub hr hb hgap
    rw [pow_zero, one_mul] at hgap
    have hstop : ¬ precision < ub - lb := not_lt.mpr hgap
    refine ⟨ub, r, refineEsc_stop f n_seeds epsilon precision par 0 r lb ub hb hstop,
      lb, ub, hb, rfl, ?_, hgap⟩
    obtain ⟨hlbm, _, hubm, _⟩ := boundEsc_some_some r epsilon lb ub hb
    exact le_of_lt (miss_lt_hit f r epsilon hf hr lb ub hlbm hubm)
  | succ n ih =>
    intro r lb ub hr hb hgap
    by_cases hcase : precision < ub - lb
    · have hlt : lb < ub := by
        obtain ⟨hlbm, _, hubm, _⟩ := boundEsc_some_some r epsilon lb ub hb
        exact miss_lt_hit f r epsilon hf hr lb ub hlbm hubm
      obtain ⟨lb2, ub2, hb2, hgap2⟩ :=
        refine_round f n_seeds epsilon par r lb ub hr hb hlt hpar hns
      have hcons2 : consistent f
          (computeCurveSequential f n_seeds (candidatePoints lb ub par) r) :=
        consistent_append_curveRows f n_seeds _ r hseed hr
      have hc2 : (2:ℚ) ≤ (par:ℚ) - 1 := by
        have h3 : ((3:ℕ):ℚ) ≤ (par:ℚ) := by exact_mod_cast hpar
        push_cast at h3; linarith
      have hgap2' : ub2 - lb2 ≤ 2 ^ n * precision := by
        have hub0 : (0:ℚ) < ub - lb := by linarith
        have hdiv : (ub - lb) / ((par:ℚ) - 1) ≤ (ub - lb) / 2 :=
          (div_le_div_iff_of_pos_left hub0 (by linarith) (by norm_num)).mpr hc2
        have hhalf : (ub - lb) / 2 ≤ 2 ^ n * precision := by
          rw [div_le_iff₀ (by norm_num : (0:ℚ) < 2)]
          calc ub - lb ≤ 2 ^ (n + 1) * precision := hgap
          _ = 2 ^ n * precision * 2 := by ring
        linarith
      obtain ⟨v, r', hres, post⟩ := ih _ lb2 ub2 hcons2 hb2 hgap2'
      refine ⟨v, r', ?_, post⟩
      rw [refineEsc_step f n_seeds epsilon precision par (n + 1) r lb ub hb hcase]
      exact hres
    · refine ⟨ub, r, refineEsc_stop f n_seeds epsilon precision par (n + 1) r lb ub hb hcase,
        lb, ub, hb, rfl, ?_, not_lt.mp hcase⟩
      obtain ⟨hlbm, _, hubm, _⟩ := boundEsc_some_some r epsilon lb ub hb
      exact le_of_lt (miss_lt_hit f r epsilon hf hr lb ub hlbm hubm)

/-- C2 counterexample: for `parallelism = 2` the slice
`np.linspace(lower_bound, upper_bound, 2)[1:-1]` is empty, so no new rows
are ever appended, the bounds never change, and the `refine_esc` loop never
terminates — although the table comes from the synthetic monotonically
decreasing loss `s ↦ 100 - s`, both bounds are defined and the precision is
positive.  Every finite iteration budget is exhausted. -/
theorem refine_esc_terminates_cex :
    (∀ a b : ℚ, a ≤ b → (100 - b : ℚ) ≤ 100 - a) ∧
    consistent (fun _ s => 100 - s) [⟨0, 50, 50⟩, ⟨0, 100, 0⟩] ∧
    boundEsc [⟨0, 50, 50⟩, ⟨0, 100, 0⟩] 25 = (some 50, some 100) ∧
    ∀ fuel, refineEsc (fun _ s => 100 - s) 1 25 1 2 fuel
      [⟨0, 50, 50⟩, ⟨0, 100, 0⟩] = .outOfFuel := by
  refine ⟨fun a b h => by linarith, ?_, by decide, ?_⟩
  · intro row hrow
    rcases List.mem_cons.mp hrow with h | h
    · rw [h]; norm_num
    · rcases List.mem_cons.mp h with h2 | h2
      · rw [h2]; norm_num
      · cases h2
  · intro fuel
    induction fuel with
    | zero => rfl
    | succ n ih =>
      rw [refineEsc_step (fun _ s => 100 - s) 1 25 1 2 n _ 50 100 (by decide)
        (by norm_num)]
      exact ih

/-- C2 amended: for every `epsilon`, `precision > 0`, `parallelism >= 3` and
`n_seeds >= 1`, given a result table whose losses come from a synthetic
monotonically decreasing loss-vs-size function and for which both bounds
are defined, `refine_esc` terminates and returns the upper bound of the
final interval: a value `v` with `lower_bound <= v <= upper_bound` and
`upper_bound - lower_bound <= precision` for the bounds computed from the
final result table.  (For `parallelism <= 2` the loop generates no interior
points and never terminates.) -/
theorem refine_esc_terminates_amended (f : ℕ → ℚ → ℚ) (n_seeds : ℕ)
    (epsilon precision : ℚ) (par : ℕ) (r : List Row) (lb ub : ℚ)
    (hseed : ∀ s₁ s₂ p, f s₁ p = f s₂ p)
    (hf : ∀ a b : ℚ, a ≤ b → f 0 b ≤ f 0 a)
    (hr : consistent f r)
    (hb : boundEsc r epsilon = (some lb, some ub))
    (hprec : 0 < precision) (hpar : 3 ≤ par) (hns : 1 ≤ n_seeds) :
    ∃ fuel v r', refineEsc f n_seeds epsilon precision par fuel r = .ok v r' ∧
      ∃ lb' ub', boundEsc r' epsilon = (some lb', some ub') ∧
        v = ub' ∧ lb' ≤ v ∧ v ≤ ub' ∧ ub' - lb' ≤ precision := by
  obtain ⟨n, hn⟩ := pow_unbounded_of_one_lt ((ub - lb) / precision)
    (by norm_num : (1:ℚ) < 2)
  have hgap : ub - lb ≤ 2 ^ n * precision := by
    rw [div_lt_iff₀ hprec] at hn
    linarith
  obtain ⟨v, r', hres, lb', ub', hb', hv, hle, hgap'⟩ :=
    refine_terminates_aux f n_seeds epsilon precision par hseed hf hpar hns
      n r lb ub hr hb hgap
  refine ⟨n + 1, v, r', hres, lb', ub', hb', hv, ?_, le_of_eq hv, hgap'⟩
  rw [hv]
  exact hle

/-- C2 witness: the amended theorem at a concrete consistent table. -/
theorem refine_esc_terminates_witness :
    ∃ fuel v r', refineEsc (fun _ s => 100 - s) 1 25 10 3 fuel
        [⟨0, 50, 50⟩, ⟨0, 100, 0⟩] = .ok v r' ∧
      ∃ lb' ub', boundEsc r' 25 = (some lb', some ub') ∧
        v = ub' ∧ lb' ≤ v ∧ v ≤ ub' ∧ ub' - lb' ≤ 10 :=
  refine_esc_terminates_amended (fun _ s => 100 - s) 1 25 10 3
    [⟨0, 50, 50⟩, ⟨0, 100, 0⟩] 50 100
    (fun _ _ _ => rfl)
    (fun a b h => by
      show (100 - b : ℚ) ≤ 100 - a
      linarith)
    (by
      intro row hrow
      rcases List.mem_cons.mp hrow with h | h
      · rw [h]; norm_num
      · rcases List.mem_cons.mp h with h2 | h2
        · rw [h2]; norm_num
        · cases h2)
    (by decide) (by decide) (by decide) (by decide)

/-- Batches drawn in one pass of a PyTorch
`DataLoader(dataset, batch_size=batch_size)` (`_make_loader`,
src/apiv2.py lines 236-237): consecutive chunks of `batch_size` elements,
the final batch possibly smaller.  The fuel argument (instantiated with the
list length) makes the recursion structural. -/
def makeBatchesAux {α : Type} (batch_size : ℕ) : ℕ → List α → List (List α)
  | 0, _ => []
  | _, [] => []
  | fuel + 1, l => l.take batch_size :: makeBatchesAux batch_size fuel (l.drop batch_size)

/-- The batches of one loader pass over `l`. -/
def makeBatches {α : Type} (batch_size : ℕ) (l : List α) : List (List α) :=
  makeBatchesAux batch_size l.length l

lemma makeBatchesAux_sum_length {α : Type} (bs : ℕ) (hbs : 0 < bs) :
    ∀ (fuel : ℕ) (l : List α), l.length ≤ fuel →
      ((makeBatchesAux bs fuel l).map List.length).sum = l.length := by
  intro fuel
  induction fuel with
  | zero =>
    intro l hl
    have hnil : l = [] := List.eq_nil_of_length_eq_zero (Nat.le_zero.mp hl)
    rw [hnil]
    rfl
  | succ n ih =>
    intro l hl
    cases l with
    | nil => rfl
    | cons x xs =>
      show ((((x :: xs).take bs :: makeBatchesAux bs n ((x :: xs).drop bs)).map
        List.length).sum) = (x :: xs).length
      rw [List.map_cons, List.sum_cons,
        ih ((x :: xs).drop bs) (by simp only [List.length_drop]; omega)]
      rw [List.length_take, List.length_drop]
      simp only [List.length_cons]
      omega

lemma makeBatches_sum_length {α : Type} (bs : ℕ) (hbs : 0 < bs) (l : List α) :
    ((makeBatches bs l).map List.length).sum = l.length :=
  makeBatchesAux_sum_length bs hbs l.length l (le_refl _)

lemma makeBatches_ne_nil {α : Type} (bs : ℕ) (l : List α) (hl : l ≠ []) :
    makeBatches bs l ≠ [] := by
  cases l with
  | nil => exact absurd rfl hl
  | cons x xs =>
    show ((x :: xs).take bs :: makeBatchesAux bs xs.length ((x :: xs).drop bs)) ≠ []
    exact List.cons_ne_nil _ _

/-- `LossDataEstimator._eval` (src/apiv2.py lines 260-276): iterates over
the unshuffled validation loader, accumulating
`loss += eval_fn(state, batch) * batch_examples` and
`examples += batch_examples`, then returns `loss / examples`.  `ef` is the
opaque `eval_fn`. -/
def evalFold {σ α : Type} (ef : σ → List α → ℚ) (state : σ)
    (batches : List (List α)) : ℚ × ℕ :=
  batches.foldl
    (fun (acc : ℚ × ℕ) batch =>
      (acc.1 + ef state batch * (batch.length : ℚ), acc.2 + batch.length))
    (0, 0)

def evalRun {σ α : Type} (ef : σ → List α → ℚ) (state : σ) (val_set : List α)
    (batch_size : ℕ) : ℚ :=
  (evalFold ef state (makeBatches batch_size val_set)).1 /
    ((evalFold ef state (makeBatches batch_size val_set)).2 : ℚ)

lemma eval_foldl {σ α : Type} (ef : σ → List α → ℚ) (state : σ) :
    ∀ (bl : List (List α)) (a : ℚ) (n : ℕ),
      bl.foldl (fun (acc : ℚ × ℕ) batch =>
          (acc.1 + ef state batch * (batch.length : ℚ), acc.2 + batch.length)) (a, n)
        = (a + (bl.map (fun b => ef state b * (b.length : ℚ))).sum,
           n + (bl.map List.length).sum) := by
  intro bl
  induction bl with
  | nil => intro a n; simp
  | cons b bs ih =>
    intro a n
    rw [List.foldl_cons, ih]
    simp only [List.map_cons, List.sum_cons]
    rw [Prod.mk.injEq]
    exact ⟨by ring, by omega⟩

lemma evalFold_eq {σ α : Type} (ef : σ → List α → ℚ) (state : σ)
    (bl : List (List α)) :
    evalFold ef state bl =
      ((bl.map (fun b => ef state b * (b.length : ℚ))).sum,
       (bl.map List.length).sum) := by
  rw [evalFold, eval_foldl ef state bl 0 0]
  rw [Prod.mk.injEq]
  exact ⟨by ring, by omega⟩

/-- C7: the value returned by the sequential evaluation equals the
example-count-weighted average of the per-batch mean losses: the sum over
batches of `eval_fn(state, batch) * batch_size` divided by the total number
of validation examples, also when the final batch is smaller. -/
theorem eval_weighted_mean {σ α : Type} (ef : σ → List α → ℚ) (state : σ)
    (val_set : List α) (batch_size : ℕ) (hbs : 0 < batch_size) :
    evalRun ef state val_set batch_size =
      ((makeBatches batch_size val_set).map
        (fun b => ef state b * (b.length : ℚ))).sum / (val_set.length : ℚ) := by
  rw [evalRun, evalFold_eq, makeBatches_sum_length batch_size hbs val_set]

/-- C7 witness: a validation set of 3 examples split into unequal batches
of sizes 2 and 1. -/
theorem eval_weighted_mean_witness :
    evalRun (fun (_ : Unit) (b : List ℚ) => b.headD 0) () [1, 2, 3] 2 =
      ((makeBatches 2 [(1 : ℚ), 2, 3]).map
        (fun b => (fun (_ : Unit) (b : List ℚ) => b.headD 0) () b * (b.length : ℚ))).sum
        / (([(1 : ℚ), 2, 3]).length : ℚ) :=
  eval_weighted_mean (fun (_ : Unit) (b : List ℚ) => b.headD 0) () [1, 2, 3] 2
    (by decide)

/-- The inner `for batch in loader` loop of `_train` (src/apiv2.py lines
250-257): applies one training step per batch, incrementing the step
counter, and breaks out as soon as `step >= train_steps`.  Returns the
state together with the step counter, which counts the applications of
`train_step_fn`. -/
def trainPass {σ α : Type} (train_step_fn : σ → List α → σ) (train_steps : ℕ) :
    List (List α) → σ × ℕ → σ × ℕ
  | [], acc => acc
  | batch :: batches, (state, step) =>
    let state2 := train_step_fn state batch
    let step2 := step + 1
    if train_steps ≤ step2 then (state2, step2)
    else trainPass train_step_fn train_steps batches (state2, step2)

/-- The outer `while step < train_steps` loop of `_train`, with fuel
bounding the number of passes over the loader (the loop does not terminate
on an empty loader). -/
def trainLoop {σ α : Type} (train_step_fn : σ → List α → σ) (train_steps : ℕ)
    (batches : List (List α)) : ℕ → σ × ℕ → Option (σ × ℕ)
  | 0, (state, step) => if step < train_steps then none else some (state, step)
  | fuel + 1, (state, step) =>
    if step < train_steps then
      trainLoop train_step_fn train_steps batches fuel
        (trainPass train_step_fn train_steps batches (state, step))
    else some (state, step)

/-- `LossDataEstimator._train` (src/apiv2.py lines 239-258): starts from
`state = init_fn(seed)` and `step = 0` and runs the while/for loops over
the loader of the shuffled size-limited subset.  Shuffling permutes the
data but not the number or sizes of the batches, which are all the loop
structure depends on, so the batches are `makeBatches batch_size subset`. -/
def train {σ α : Type} (init_fn : ℕ → σ) (train_step_fn : σ → List α → σ)
    (seed train_steps batch_size : ℕ) (subset : List α) (fuel : ℕ) :
    Option (σ × ℕ) :=
  trainLoop train_step_fn train_steps (makeBatches batch_size subset) fuel
    (init_fn seed, 0)

/-- One pass never overshoots `train_steps` and, on a non-empty loader,
strictly increases the step counter. -/
lemma trainPass_spec {σ α : Type} (tsf : σ → List α → σ) (tsteps : ℕ) :
    ∀ (batches : List (List α)) (state : σ) (step : ℕ), step < tsteps →
      step ≤ (trainPass tsf tsteps batches (state, step)).2 ∧
      (trainPass tsf tsteps batches (state, step)).2 ≤ tsteps ∧
      (batches ≠ [] → step < (trainPass tsf tsteps batches (state, step)).2) := by
  intro batches
  induction batches with
  | nil =>
    intro state step hstep
    exact ⟨le_refl _, le_of_lt hstep, fun h => absurd rfl h⟩
  | cons b bs ih =>
    intro state step hstep
    simp only [trainPass]
    by_cases hle : tsteps ≤ step + 1
    · rw [if_pos hle]
      exact ⟨by omega, by omega, fun _ => by omega⟩
    · rw [if_neg hle]
      obtain ⟨h1, h2, _⟩ := ih (tsf state b) (step + 1) (by omega)
      exact ⟨by omega, h2, fun _ => by omega⟩

/-- With a non-empty loader, fuel `train_steps` suffices for the `while`
loop, which stops with the step counter exactly at `train_steps`. -/
lemma trainLoop_spec {σ α : Type} (tsf : σ → List α → σ) (tsteps : ℕ)
    (batches : List (List α)) (hbat : batches ≠ []) :
    ∀ (fuel : ℕ) (state : σ) (step : ℕ), step ≤ tsteps → tsteps - step ≤ fuel →
      ∃ state2, trainLoop tsf tsteps batches fuel (state, step)
        = some (state2, tsteps) := by
  intro fuel
  induction fuel with
  | zero =>
    intro state step h1 h2
    have hstep : step = tsteps := by omega
    subst hstep
    rw [trainLoop, if_neg (lt_irrefl _)]
    exact ⟨state, rfl⟩
  | succ n ih =>
    intro state step h1 h2
    by_cases hlt : step < tsteps
    · rw [trainLoop, if_pos hlt]
      obtain ⟨hle, hub, hprog⟩ := trainPass_spec tsf tsteps batches state step hlt
      rcases hres : trainPass tsf tsteps batches (state, step) with ⟨state2, step2⟩
      rw [hres] at hle hub hprog
      have hprog2 := hprog hbat
      exact ih state2 step2 hub (by simp only at hle hub hprog2; omega)
    · have hstep : step = tsteps := by omega
      subst hstep
      rw [trainLoop, if_neg hlt]
      exact ⟨state, rfl⟩

/-- With the counting instantiation (state = number of training-step
applications so far), every pass keeps state and step counter equal. -/
lemma trainPass_count {α : Type} (tsteps : ℕ) :
    ∀ (batches : List (List α)) (k : ℕ),
      ∃ m, trainPass (fun (n : ℕ) _ => n + 1) tsteps batches (k, k) = (m, m) := by
  intro batches
  induction batches with
  | nil => intro k; exact ⟨k, rfl⟩
  | cons b bs ih =>
    intro k
    simp only [trainPass]
    by_cases h : tsteps ≤ k + 1
    · rw [if_pos h]; exact ⟨k + 1, rfl⟩
    · rw [if_neg h]; exact ih (k + 1)

lemma trainLoop_count {α : Type} (tsteps : ℕ) (batches : List (List α)) :
    ∀ (fuel k : ℕ) (res : ℕ × ℕ),
      trainLoop (fun (n : ℕ) _ => n + 1) tsteps batches fuel (k, k) = some res →
      res.1 = res.2 := by
  intro fuel
  induction fuel with
  | zero =>
    intro k res h
    rw [trainLoop] at h
    by_cases hk : k < tsteps
    · rw [if_pos hk] at h; cases h
    · rw [if_neg hk] at h
      injection h with h
      rw [← h]
  | succ n ih =>
    intro k res h
    rw [trainLoop] at h
    by_cases hk : k < tsteps
    · rw [if_pos hk] at h
      obtain ⟨m, hm⟩ := trainPass_count tsteps batches k
      rw [hm] at h
      exact ih m res h
    · rw [if_neg hk] at h
      injection h with h
      rw [← h]

/-- C8: for every seed and non-empty training subset, fuel `train_steps` is
enough for sequential training to terminate, with the step counter — the
number of applications of `train_step_fn` — equal to exactly
`train_steps`, cycling through passes when the subset yields fewer batches
than `train_steps`; a subset smaller than `batch_size` is not an error.
The second conjunct instantiates the training state with an application
counter, confirming that `train_step_fn` is applied exactly `train_steps`
times. -/
theorem train_terminates {σ α : Type} (init_fn : ℕ → σ)
    (train_step_fn : σ → List α → σ) (seed train_steps batch_size : ℕ)
    (subset : List α) (hsub : subset ≠ []) (hbs : 0 < batch_size) :
    (∃ state, train init_fn train_step_fn seed train_steps batch_size subset
        train_steps = some (state, train_steps)) ∧
    train (fun _ => (0 : ℕ)) (fun n _ => n + 1) seed train_steps batch_size
        (subset.map (fun _ => (0 : ℕ))) train_steps
      = some (train_steps, train_steps) := by
  constructor
  · exact trainLoop_spec train_step_fn train_steps _
      (makeBatches_ne_nil batch_size subset hsub) train_steps (init_fn seed) 0
      (Nat.zero_le _) (by omega)
  · have hsub2 : subset.map (fun _ => (0 : ℕ)) ≠ [] := by
      cases subset with
      | nil => exact absurd rfl hsub
      | cons x xs => exact List.cons_ne_nil _ _
    obtain ⟨st, hst⟩ := trainLoop_spec (fun (n : ℕ) _ => n + 1) train_steps _
      (makeBatches_ne_nil batch_size _ hsub2) train_steps 0 0
      (Nat.zero_le _) (by omega)
    have hcount := trainLoop_count train_steps
      (makeBatches batch_size (subset.map (fun _ => (0 : ℕ)))) train_steps 0
      (st, train_steps) hst
    simp only at hcount
    rw [hcount] at hst
    exact hst

/-- C8 witness: 3 training steps on a 2-element subset with batch size 256
(the subset is smaller than the batch size and yields a single batch per
pass, so the loop cycles). -/
theorem train_terminates_witness :
    (∃ state, train (fun _ => (0 : ℕ)) (fun n _ => n + 37) 5 3 256 [1, 2] 3
        = some (state, 3)) ∧
    train (fun _ => (0 : ℕ)) (fun n _ => n + 1) 5 3 256
        (([1, 2] : List ℕ).map (fun _ => (0 : ℕ))) 3 = some (3, 3) :=
  train_terminates (fun _ => (0 : ℕ)) (fun n _ => n + 37) 5 3 256 [1, 2]
    (by decide) (by decide)

/-- `np.linspace` over the reals. -/
noncomputable def linspaceR (a b : ℝ) (n : ℕ) : List ℝ :=
  if n = 1 then [a]
  else (List.range n).map (fun (i : ℕ) => a + (i : ℝ) * (b - a) / ((n : ℝ) - 1))

/-- `np.logspace(1, np.log10(max_train_size), n_points)` (src/apiv2.py line
148): `10 ** np.linspace(1, log10(M), n_points)`. -/
noncomputable def logspaceR (M n_points : ℕ) : List ℝ :=
  (linspaceR 1 (Real.logb 10 M) n_points).map (fun e => (10 : ℝ) ^ e)

/-- The `'log'` probe points after `np.ceil`, as integers. -/
noncomputable def logPoints (M n_points : ℕ) : List ℤ :=
  (logspaceR M n_points).map (fun x => ⌈x⌉)

/-- The `'linear'` probe points: `np.ceil(np.linspace(10, max_train_size,
n_points))`, as integers. -/
def linPoints (M n_points : ℕ) : List ℤ :=
  (linspaceQ 10 (M : ℚ) n_points).map (fun q => ⌈q⌉)

lemma linspaceQ_length (a b : ℚ) (n : ℕ) : (linspaceQ a b n).length = n := by
  rw [linspaceQ]
  by_cases h : n = 1
  · rw [if_pos h, h]; rfl
  · rw [if_neg h, List.length_map, List.length_range]

lemma linspaceR_length (a b : ℝ) (n : ℕ) : (linspaceR a b n).length = n := by
  rw [linspaceR]
  by_cases h : n = 1
  · rw [if_pos h, h]; rfl
  · rw [if_neg h, List.length_map, List.length_range]

lemma logPoints_length (M n : ℕ) : (logPoints M n).length = n := by
  rw [logPoints, logspaceR, List.length_map, List.length_map, linspaceR_length]

lemma linPoints_length (M n : ℕ) : (linPoints M n).length = n := by
  rw [linPoints, List.length_map, linspaceQ_length]

lemma linspaceQ_bounds (M : ℚ) (n : ℕ) (hM : 10 ≤ M) :
    ∀ q ∈ linspaceQ 10 M n, 10 ≤ q ∧ q ≤ M := by
  intro q hq
  rw [linspaceQ] at hq
  by_cases h : n = 1
  · rw [if_pos h] at hq
    rw [List.mem_singleton.mp hq]
    exact ⟨le_refl _, hM⟩
  · rw [if_neg h] at hq
    obtain ⟨i, hi, rfl⟩ := List.mem_map.mp hq
    rw [List.mem_range] at hi
    have hn2 : 2 ≤ n := by omega
    have hC : (0:ℚ) < (n : ℚ) - 1 := by
      have h2 : ((2:ℕ) : ℚ) ≤ (n : ℚ) := by exact_mod_cast hn2
      push_cast at h2; linarith
    have hiq : (i : ℚ) ≤ (n : ℚ) - 1 := by
      have h2 : ((i + 1 : ℕ) : ℚ) ≤ ((n : ℕ) : ℚ) := by exact_mod_cast hi
      push_cast at h2; linarith
    have hi0 : (0:ℚ) ≤ (i : ℚ) := Nat.cast_nonneg i
    constructor
    · have hnn : 0 ≤ (i : ℚ) * (M - 10) / ((n : ℚ) - 1) :=
        div_nonneg (mul_nonneg hi0 (by linarith)) (le_of_lt hC)
      linarith
    · have hub : (i : ℚ) * (M - 10) / ((n : ℚ) - 1) ≤ M - 10 := by
        rw [div_le_iff₀ hC]
        nlinarith [mul_le_mul_of_nonneg_right hiq (show (0:ℚ) ≤ M - 10 by linarith)]
      linarith

lemma linspaceR_bounds (L : ℝ) (n : ℕ) (hL : 1 ≤ L) :
    ∀ x ∈ linspaceR 1 L n, 1 ≤ x ∧ x ≤ L := by
  intro x hx
  rw [linspaceR] at hx
  by_cases h : n = 1
  · rw [if_pos h] at hx
    rw [List.mem_singleton.mp hx]
    exact ⟨le_refl _, hL⟩
  · rw [if_neg h] at hx
    obtain ⟨i, hi, rfl⟩ := List.mem_map.mp hx
    rw [List.mem_range] at hi
    have hn2 : 2 ≤ n := by omega
    have hC : (0:ℝ) < (n : ℝ) - 1 := by
      have h2 : ((2:ℕ) : ℝ) ≤ (n : ℝ) := by exact_mod_cast hn2
      push_cast at h2; linarith
    have hiq : (i : ℝ) ≤ (n : ℝ) - 1 := by
      have h2 : ((i + 1 : ℕ) : ℝ) ≤ ((n : ℕ) : ℝ) := by exact_mod_cast hi
      push_cast at h2; linarith
    have hi0 : (0:ℝ) ≤ (i : ℝ) := Nat.cast_nonneg i
    constructor
    · have hnn : 0 ≤ (i : ℝ) * (L - 1) / ((n : ℝ) - 1) :=
        div_nonneg (mul_nonneg hi0 (by linarith)) (le_of_lt hC)
      linarith
    · have hub : (i : ℝ) * (L - 1) / ((n : ℝ) - 1) ≤ L - 1 := by
        rw [div_le_iff₀ hC]
        nlinarith [mul_le_mul_of_nonneg_right hiq (show (0:ℝ) ≤ L - 1 by linarith)]
      linarith

lemma logspaceR_bounds (M n : ℕ) (hM : 10 ≤ M) :
    ∀ x ∈ logspaceR M n, 10 ≤ x ∧ x ≤ (M : ℝ) := by
  intro x hx
  rw [logspaceR] at hx
  obtain ⟨e, he, rfl⟩ := List.mem_map.mp hx
  have hM10 : (10:ℝ) ≤ (M : ℝ) := by exact_mod_cast hM
  have hM0 : (0:ℝ) < (M : ℝ) := by linarith
  have hL : 1 ≤ Real.logb 10 M := by
    rw [Real.le_logb_iff_rpow_le (by norm_num) hM0, Real.rpow_one]
    exact hM10
  obtain ⟨h1, h2⟩ := linspaceR_bounds (Real.logb 10 M) n hL e he
  constructor
  · calc (10:ℝ) = (10:ℝ) ^ (1:ℝ) := (Real.rpow_one 10).symm
    _ ≤ (10:ℝ) ^ e := (Real.rpow_le_rpow_left_iff (by norm_num)).mpr h1
  · calc (10:ℝ) ^ e ≤ (10:ℝ) ^ Real.logb 10 M :=
        (Real.rpow_le_rpow_left_iff (by norm_num)).mpr h2
    _ = (M : ℝ) := Real.rpow_logb (by norm_num) (by norm_num) hM0

lemma logPoints_bounds (M n : ℕ) (hM : 10 ≤ M) :
    ∀ z ∈ logPoints M n, 10 ≤ z ∧ z ≤ (M : ℤ) := by
  intro z hz
  rw [logPoints] at hz
  obtain ⟨x, hx, rfl⟩ := List.mem_map.mp hz
  obtain ⟨h1, h2⟩ := logspaceR_bounds M n hM x hx
  constructor
  · have hc := Int.ceil_mono h1
    rwa [show ⌈(10:ℝ)⌉ = 10 by norm_num] at hc
  · have hc := Int.ceil_mono h2
    rwa [Int.ceil_natCast] at hc

lemma linPoints_bounds (M n : ℕ) (hM : 10 ≤ M) :
    ∀ z ∈ linPoints M n, 10 ≤ z ∧ z ≤ (M : ℤ) := by
  intro z hz
  rw [linPoints] at hz
  obtain ⟨q, hq, rfl⟩ := List.mem_map.mp hz
  have hMQ : (10:ℚ) ≤ (M : ℚ) := by exact_mod_cast hM
  obtain ⟨h1, h2⟩ := linspaceQ_bounds (M : ℚ) n hMQ q hq
  constructor
  · have hc := Int.ceil_mono h1
    rwa [show ⌈(10:ℚ)⌉ = 10 by norm_num] at hc
  · have hc := Int.ceil_mono h2
    rwa [Int.ceil_natCast] at hc

/-- `LossDataEstimator.compute_curve` (src/apiv2.py lines 131-159): when
`points` is `None`, generates `n_points` sizes by `sampling_type`
(`np.logspace(1, log10(max_train_size), n_points)` or
`np.linspace(10, max_train_size, n_points)`, rejecting any other value)
and rounds them up with `np.ceil`; explicit `points` are used exactly as
given.  The call then dispatches on `use_vmap` to one of the two
strategies, whose per-job losses are abstracted by `fvmap` / `fseq`. -/
noncomputable def computeCurve (fseq fvmap : ℕ → ℚ → ℚ) (n_seeds M : ℕ)
    (use_vmap : Bool) (n_points : ℕ) (sampling_type : String)
    (points : Option (List ℚ)) (results : List Row) :
    Except String (List Row) :=
  let run : List ℚ → Except String (List Row) := fun pts =>
    if use_vmap then .ok (computeCurveFullVmap fvmap n_seeds pts results)
    else .ok (computeCurveSequential fseq n_seeds pts results)
  match points with
  | some pts => run pts
  | none =>
    if sampling_type = "log" then
      run ((logPoints M n_points).map (fun (z : ℤ) => (z : ℚ)))
    else if sampling_type = "linear" then
      run ((linPoints M n_points).map (fun (z : ℤ) => (z : ℚ)))
    else .error "Argument sampling_type should be log or linear"

/-- C6: `compute_curve(n_points=N)` with sampling type `'log'` or
`'linear'` and no explicit points appends exactly `N * n_seeds` new rows to
the result table, one row `(seed, point, val_loss)` per `(point, seed)`
pair with `seed` ranging over `0 .. n_seeds - 1`, in both the sequential
and the vectorized strategy. -/
theorem compute_curve_rows (fseq fvmap : ℕ → ℚ → ℚ) (n_seeds M N : ℕ)
    (results : List Row) :
    (computeCurve fseq fvmap n_seeds M false N "log" none results =
        .ok (results ++
          curveRows fseq n_seeds ((logPoints M N).map (fun (z : ℤ) => (z : ℚ)))) ∧
      computeCurve fseq fvmap n_seeds M false N "linear" none results =
        .ok (results ++
          curveRows fseq n_seeds ((linPoints M N).map (fun (z : ℤ) => (z : ℚ)))) ∧
      computeCurve fseq fvmap n_seeds M true N "log" none results =
        .ok (results ++
          curveRows fvmap n_seeds ((logPoints M N).map (fun (z : ℤ) => (z : ℚ)))) ∧
      computeCurve fseq fvmap n_seeds M true N "linear" none results =
        .ok (results ++
          curveRows fvmap n_seeds ((linPoints M N).map (fun (z : ℤ) => (z : ℚ))))) ∧
    (curveRows fseq n_seeds ((logPoints M N).map (fun (z : ℤ) => (z : ℚ)))).length
        = N * n_seeds ∧
    (curveRows fseq n_seeds ((linPoints M N).map (fun (z : ℤ) => (z : ℚ)))).length
        = N * n_seeds ∧
    (curveRows fvmap n_seeds ((logPoints M N).map (fun (z : ℤ) => (z : ℚ)))).length
        = N * n_seeds ∧
    (curveRows fvmap n_seeds ((linPoints M N).map (fun (z : ℤ) => (z : ℚ)))).length
        = N * n_seeds := by
  have hlog : ((logPoints M N).map (fun (z : ℤ) => (z : ℚ))).length = N := by
    rw [List.length_map, logPoints_length]
  have hlin : ((linPoints M N).map (fun (z : ℤ) => (z : ℚ))).length = N := by
    rw [List.length_map, linPoints_length]
  refine ⟨⟨?_, ?_, ?_, ?_⟩, ?_, ?_, ?_, ?_⟩
  · rw [show computeCurve fseq fvmap n_seeds M false N "log" none results =
        .ok (computeCurveSequential fseq n_seeds
          ((logPoints M N).map (fun (z : ℤ) => (z : ℚ))) results) from rfl,
      computeCurveSequential_eq]
  · rw [show computeCurve fseq fvmap n_seeds M false N "linear" none results =
        .ok (computeCurveSequential fseq n_seeds
          ((linPoints M N).map (fun (z : ℤ) => (z : ℚ))) results) from rfl,
      computeCurveSequential_eq]
  · rw [show computeCurve fseq fvmap n_seeds M true N "log" none results =
        .ok (computeCurveFullVmap fvmap n_seeds
          ((logPoints M N).map (fun (z : ℤ) => (z : ℚ))) results) from rfl,
      computeCurveFullVmap_eq]
  · rw [show computeCurve fseq fvmap n_seeds M true N "linear" none results =
        .ok (computeCurveFullVmap fvmap n_seeds
          ((linPoints M N).map (fun (z : ℤ) => (z : ℚ))) results) from rfl,
      computeCurveFullVmap_eq]
  · rw [curveRows_length, hlog]
  · rw [curveRows_length, hlin]
  · rw [curveRows_length, hlog]
  · rw [curveRows_length, hlin]

/-- C9 counterexample: explicitly supplied points are used without
validation or rounding: the point 3.5 is neither `>= 10` nor an integer,
yet its experiment row is recorded with `samples = 3.5` exactly. -/
theorem probe_points_cex :
    computeCurve (fun _ _ => 0) (fun _ _ => 0) 1 1000 false 10 "log"
        (some [7/2]) [] = .ok [⟨0, 7/2, 0⟩] ∧
    ¬ ((10 : ℚ) ≤ 7/2) ∧ (7 : ℚ)/2 ≠ ((⌈(7 : ℚ)/2⌉ : ℤ) : ℚ) := by
  refine ⟨rfl, by norm_num, ?_⟩
  have h4 : ⌈(7 : ℚ)/2⌉ = (4 : ℤ) := by
    rw [Int.ceil_eq_iff]
    constructor <;> norm_num
  rw [h4]
  norm_num

/-- C9 amended: when `max_train_size >= 10`, every generated probe point
(log or linear sampling) is an integer — the `np.ceil` of the raw point —
lying in `[10, max_train_size]`; explicitly supplied points, however, are
passed to the experiment exactly as given, with no validation and no
rounding. -/
theorem probe_points_amended (M N : ℕ) (hM : 10 ≤ M) :
    (∀ z ∈ logPoints M N, 10 ≤ z ∧ z ≤ (M : ℤ)) ∧
    (∀ z ∈ linPoints M N, 10 ≤ z ∧ z ≤ (M : ℤ)) ∧
    (∀ (fseq fvmap : ℕ → ℚ → ℚ) (n_seeds n_points : ℕ)
        (sampling_type : String) (pts : List ℚ) (results : List Row),
      computeCurve fseq fvmap n_seeds M false n_points sampling_type
          (some pts) results
        = .ok (computeCurveSequential fseq n_seeds pts results) ∧
      computeCurve fseq fvmap n_seeds M true n_points sampling_type
          (some pts) results
        = .ok (computeCurveFullVmap fvmap n_seeds pts results)) :=
  ⟨logPoints_bounds M N hM, linPoints_bounds M N hM,
   fun _ _ _ _ _ _ _ => ⟨rfl, rfl⟩⟩

/-- C9 witness: the amended theorem at `max_train_size = 100`,
`n_points = 3`. -/
theorem probe_points_witness :
    (∀ z ∈ logPoints 100 3, 10 ≤ z ∧ z ≤ (100 : ℤ)) ∧
    (∀ z ∈ linPoints 100 3, 10 ≤ z ∧ z ≤ (100 : ℤ)) ∧
    (∀ (fseq fvmap : ℕ → ℚ → ℚ) (n_seeds n_points : ℕ)
        (sampling_type : String) (pts : List ℚ) (results : List Row),
      computeCurve fseq fvmap n_seeds 100 false n_points sampling_type
          (some pts) results
        = .ok (computeCurveSequential fseq n_seeds pts results) ∧
      computeCurve fseq fvmap n_seeds 100 true n_points sampling_type
          (some pts) results
        = .ok (computeCurveFullVmap fvmap n_seeds pts results)) :=
  probe_points_amended 100 3 (by decide)

/-- C10: with an explicit non-`None` `points` list, `sampling_type` is
never validated: any value (including invalid ones) is accepted without
error and has no effect on the computation. -/
theorem compute_curve_explicit_ignores_sampling (fseq fvmap : ℕ → ℚ → ℚ)
    (n_seeds M : ℕ) (use_vmap : Bool) (n_points : ℕ) (pts : List ℚ)
    (results : List Row) (sampling_type other : String) :
    computeCurve fseq fvmap n_seeds M use_vmap n_points sampling_type
        (some pts) results
      = computeCurve fseq fvmap n_seeds M use_vmap n_points other
        (some pts) results ∧
    ∃ out, computeCurve fseq fvmap n_seeds M use_vmap n_points sampling_type
        (some pts) results = .ok out := by
  refine ⟨rfl, ?_⟩
  cases use_vmap
  · exact ⟨_, rfl⟩
  · exact ⟨_, rfl⟩

end Reprieve
